import Mathlib

/-!
Verification development for `src/normalize_tags.py`, a maintenance utility
that rewrites the `tags` list of YAML front matter blocks, collapsing
spelling variants of one tag into the canonical form `online-privacy`.

The Python source is shallowly embedded below.  Values decoded from YAML are
modelled by the inductive type `Yaml`; the external YAML library (PyYAML
`safe_load` / `safe_dump`) is not part of the repository and is therefore
kept abstract as a `YamlCodec` parameter: `parse` returns `none` where
`yaml.safe_load` would raise, and `dump` stands for `yaml.safe_dump` with
`sort_keys=False`.  File contents are plain strings; character-level
operations (`str.strip`, `str.lstrip`, `str.split`, the regex) are modelled
over `List Char`, restricted to ASCII whitespace (the Python originals also
accept further Unicode whitespace, which no claim depends on).
-/

/-- Values produced by decoding a YAML document (scalars, sequences,
mappings).  Floating point scalars are not modelled; no claim involves
them. -/
inductive Yaml where
  | null : Yaml
  | bool (b : Bool) : Yaml
  | int (n : Int) : Yaml
  | str (s : String) : Yaml
  | list (xs : List Yaml) : Yaml
  | dict (kvs : List (String × Yaml)) : Yaml

/-- The abstract YAML codec standing for the external PyYAML dependency:
`parse` models `yaml.safe_load` (`none` models a raised exception), `dump`
models `yaml.safe_dump(·, sort_keys=False)` on a top-level mapping. -/
structure YamlCodec where
  parse : String → Option Yaml
  dump : List (String × Yaml) → String

/-- ASCII whitespace, the common core of the characters trimmed by the
Python function `str.strip` and matched by the regex class `\s`. -/
def pyWs (c : Char) : Bool :=
  c == ' ' || c == '\t' || c == '\n' || c == '\r' || c == '\x0b' || c == '\x0c'

/-- Left strip on character lists, modelling `str.lstrip`. -/
def pyLstripL (l : List Char) : List Char := l.dropWhile pyWs

/-- Right strip on character lists. -/
def pyRstripL (l : List Char) : List Char := (l.reverse.dropWhile pyWs).reverse

/-- Model of the Python method `str.strip()` (trim surrounding whitespace). -/
def pyStrip (s : String) : String := String.mk (pyRstripL (pyLstripL s.toList))

/-- Model of the Python method `str.lstrip()` (trim leading whitespace). -/
def pyLstrip (s : String) : String := String.mk (pyLstripL s.toList)

/-- Trim of trailing whitespace only (used to compare against `pyStrip`). -/
def trimTrailing (s : String) : String := String.mk (pyRstripL s.toList)

/-- True when the string does not begin with a whitespace character. -/
def noLeadingWs (s : String) : Bool :=
  match s.toList with
  | [] => true
  | c :: _ => !pyWs c

/-- Separator characters admitted by the regex fragment `[\s\-_]` of
`VARIANT_RE` (src/normalize_tags.py line 17). -/
def isSepChar (c : Char) : Bool := pyWs c || c == '-' || c == '_'

/-- Full-string match of the regex `^(online[\s\-_]?privacy)$` with
`re.IGNORECASE` (src/normalize_tags.py line 17), on a character list:
after lowercasing, the input is `onlineprivacy`, or `online` followed by a
single separator character followed by `privacy`. -/
def variantChars (l : List Char) : Bool :=
  let low := l.map Char.toLower
  low == "onlineprivacy".toList ||
    (low.take 6 == "online".toList &&
      (match low.drop 6 with
       | c :: rest => isSepChar c && rest == "privacy".toList
       | [] => false))

/-- Model of `VARIANT_RE.match(t.strip())` being truthy
(src/normalize_tags.py line 56): the whitespace-trimmed string matches the
variant regex as a full-string, case-insensitive match. -/
def isVariant (t : String) : Bool := variantChars (pyStrip t).toList

/-- The canonical tag (src/normalize_tags.py line 20). -/
def CANONICAL : String := "online-privacy"

/-- The condition of line 56 of src/normalize_tags.py on a tag entry:
`isinstance(t, str) and VARIANT_RE.match(t.strip())`. -/
def isVariantEntry (t : Yaml) : Bool :=
  match t with
  | .str s => isVariant s
  | _ => false

/-- The substitution loop of `normalize_tags`
(src/normalize_tags.py lines 52-60): returns the rewritten list `final`
and the `changed` flag. -/
def substLoop : List Yaml → List Yaml × Bool
  | [] => ([], false)
  | t :: ts =>
    let r := substLoop ts
    if isVariantEntry t then (Yaml.str CANONICAL :: r.1, true)
    else (t :: r.1, r.2)

/-- Python hash keys of the hashable `Yaml` scalars.  In Python,
`True == 1` and `False == 0` and they hash alike, so booleans map to the
key of the corresponding integer. -/
inductive PyKey where
  | nullk : PyKey
  | intk (n : Int) : PyKey
  | strk (s : String) : PyKey
deriving DecidableEq

/-- Hash key of a `Yaml` value: `none` for the unhashable values (lists and
mappings), which make `dict.fromkeys` raise `TypeError`. -/
def toKey : Yaml → Option PyKey
  | .null => some .nullk
  | .bool b => some (.intk (if b then 1 else 0))
  | .int n => some (.intk n)
  | .str s => some (.strk s)
  | .list _ => none
  | .dict _ => none

/-- Model of `list(dict.fromkeys(final))` (src/normalize_tags.py line 63),
generalized over the set `seen` of keys already inserted: keeps the first
occurrence of each key, raises `TypeError` on an unhashable element. -/
def fromKeysLoop (seen : List PyKey) : List Yaml → Except String (List Yaml)
  | [] => .ok []
  | x :: xs =>
    match toKey x with
    | none => .error "TypeError: unhashable type"
    | some k =>
      if seen.contains k then fromKeysLoop seen xs
      else
        match fromKeysLoop (k :: seen) xs with
        | .error e => .error e
        | .ok rest => .ok (x :: rest)

/-- Model of `list(dict.fromkeys(final))` (src/normalize_tags.py line 63). -/
def pyFromKeys (xs : List Yaml) : Except String (List Yaml) := fromKeysLoop [] xs

/-- Model of `normalize_tags` (src/normalize_tags.py lines 51-64).  The
`Except` layer records the `TypeError` that `dict.fromkeys` raises on an
unhashable entry; the function has no exception handler. -/
def normalizeTags (tags : List Yaml) : Except String (List Yaml × Bool) :=
  let r := substLoop tags
  match pyFromKeys r.1 with
  | .error e => .error e
  | .ok final => .ok (final, r.2)

example : normalizeTags [Yaml.str "Online Privacy", Yaml.str "security"] =
    .ok ([Yaml.str "online-privacy", Yaml.str "security"], true) := rfl

example : normalizeTags [Yaml.str "online_privacy", Yaml.str "online-privacy"] =
    .ok ([Yaml.str "online-privacy"], true) := rfl

example : normalizeTags [Yaml.str "privacy", Yaml.str "security"] =
    .ok ([Yaml.str "privacy", Yaml.str "security"], false) := rfl

/-- True when `p` is a prefix of `l`, modelling the Python method
`str.startswith` at the character level. -/
def isPref : List Char → List Char → Bool
  | [], _ => true
  | _ :: _, [] => false
  | c :: cs, d :: ds => c == d && isPref cs ds

/-- Model of `text.startswith(marker)` (src/normalize_tags.py line 31). -/
def pyStartsWith (text marker : String) : Bool := isPref marker.toList text.toList

/-- Index of the first occurrence of `sep` (non-empty) in a character list,
scanning left to right as the Python method `str.split` does. -/
def findSub (sep : List Char) : List Char → Option Nat
  | [] => none
  | c :: rest => if isPref sep (c :: rest) then some 0 else (findSub sep rest).map (· + 1)

/-- Split a character list at the first occurrence of `sep`, consuming
the separator; `none` when `sep` does not occur. -/
def splitFirst (sep l : List Char) : Option (List Char × List Char) :=
  (findSub sep l).map (fun i => (l.take i, l.drop (i + sep.length)))

/-- Model of the Python call `text.split(sep, 2)` for a non-empty
separator (src/normalize_tags.py line 34): at most two splits, so at most
three parts, the last part holding the unsplit remainder. -/
def pySplit2 (sep l : List Char) : List (List Char) :=
  match splitFirst sep l with
  | none => [l]
  | some (a, rest) =>
    match splitFirst sep rest with
    | none => [a, rest]
    | some (b, rest2) => [a, b, rest2]

/-- String-level wrapper of `pySplit2`. -/
def pySplit2Str (sep text : String) : List String :=
  (pySplit2 sep.toList text.toList).map String.mk

example : pySplit2Str "---" "---\na: b\n---\nbody\n---x" =
    ["", "\na: b\n", "\nbody\n---x"] := rfl

example : pySplit2Str "---" "---abc" = ["", "abc"] := rfl

/-- Model of `load_front_matter` (src/normalize_tags.py lines 30-49).
`parse` stands for `yaml.safe_load`; its `none` result models the raised
exception that the `try/except` of lines 41-44 converts into the
no-front-matter sentinel.  The sentinel is `(none, text)`. -/
def loadFrontMatter (parse : String → Option Yaml) (text : String) :
    Option (List (String × Yaml)) × String :=
  if pyStartsWith text "---" = false then (none, text)
  else
    let parts := pySplit2Str "---" text
    if parts.length < 3 then (none, text)
    else
      match parse (parts.getD 1 "") with
      | none => (none, text)
      | some (.dict d) => (some d, parts.getD 2 "")
      | some _ => (none, text)

/-- Python truthiness of a `Yaml` value (`not front`, `not tags` in
src/normalize_tags.py lines 70 and 74 go through this). -/
def pyFalsy : Yaml → Bool
  | .null => true
  | .bool b => !b
  | .int n => n == 0
  | .str s => s == ""
  | .list xs => xs.isEmpty
  | .dict kvs => kvs.isEmpty

/-- Model of `front.get("tags")` (src/normalize_tags.py line 73): first
binding of the key in the mapping, if any. -/
def lookupKV (d : List (String × Yaml)) (k : String) : Option Yaml :=
  (d.find? (fun kv => kv.1 == k)).map (fun kv => kv.2)

/-- Model of the Python statement `front["tags"] = new_tags`
(src/normalize_tags.py line 81): when the key is present its binding is
replaced in place (preserving the key order of the mapping), otherwise the
binding is appended. -/
def dictSet (d : List (String × Yaml)) (k : String) (v : Yaml) :
    List (String × Yaml) :=
  if d.any (fun kv => kv.1 == k) then
    d.map (fun kv => if kv.1 == k then (k, v) else kv)
  else d ++ [(k, v)]

/-- Model of `process_file` (src/normalize_tags.py lines 66-87) on the
decoded content `text` of one file.  Returns `ok none` where the Python
function returns `None` (the file is skipped), `ok (some (newText, text))`
where it returns the pair `(new_text, text)`, and `error` where an
uncaught exception (the `TypeError` of `dict.fromkeys`) propagates out. -/
def processFile (codec : YamlCodec) (text : String) :
    Except String (Option (String × String)) :=
  match loadFrontMatter codec.parse text with
  | (none, _) => .ok none
  | (some front, body) =>
    if front.isEmpty then .ok none
    else
      match lookupKV front "tags" with
      | none => .ok none
      | some v =>
        if pyFalsy v then .ok none
        else
          match v with
          | .list tags =>
            match normalizeTags tags with
            | .error e => .error e
            | .ok (newTags, changed) =>
              if changed = false then .ok none
              else
                let front2 := dictSet front "tags" (.list newTags)
                let newYaml := pyStrip (codec.dump front2)
                .ok (some ("---\n" ++ newYaml ++ "\n---\n" ++ pyLstrip body, text))
          | _ => .ok none

/-- Model of the per-file loop of `main` (src/normalize_tags.py
lines 104-109) over already-read file contents: collects the change
records `(path, new content, original content)`; an exception raised by
`process_file` propagates (there is no handler in `main`). -/
def collectChanges (codec : YamlCodec) :
    List (String × String) → Except String (List (String × String × String))
  | [] => .ok []
  | (p, content) :: rest =>
    match processFile codec content with
    | .error e => .error e
    | .ok none => collectChanges codec rest
    | .ok (some (newT, oldT)) =>
      match collectChanges codec rest with
      | .error e => .error e
      | .ok cs => .ok ((p, newT, oldT) :: cs)

/-- The write sequence of the apply loop of `main` (src/normalize_tags.py
lines 123-127): for each change record in order, first the backup write,
then the overwrite.  The backup path is `p.with_suffix(p.suffix + ".bak")`,
which appends `.bak` to the path: `with_suffix` first removes the current
suffix and then appends its argument, which is that same suffix followed
by `.bak`. -/
def writeEvents : List (String × String × String) → List (String × String)
  | [] => []
  | c :: cs => (c.1 ++ ".bak", c.2.2) :: (c.1, c.2.1) :: writeEvents cs

/-- Replay of a write sequence over a file-system state (path to content),
later writes overriding earlier ones. -/
def applyWrites (fs : String → Option String) :
    List (String × String) → String → Option String
  | [] => fs
  | w :: ws => applyWrites (fun q => if q == w.1 then some w.2 else fs q) ws

/-- Model of the mode handling and reporting of `main`
(src/normalize_tags.py lines 89-130), after the change records have been
collected: returns the printed lines, the write events performed, and the
exit status.  Line 95-96: when `--apply` is absent, `args.dry_run` is
forced to `True`; the dry-run check of line 118 precedes the apply loop. -/
def mainModel (applyFlag dryRunFlag : Bool) (changes : List (String × String × String)) :
    List String × List (String × String) × Nat :=
  let dryRun := if applyFlag = false then true else dryRunFlag
  if changes.isEmpty then (["No files with tag variants found."], [], 0)
  else
    let report := changes.map (fun c => "Will update: " ++ c.1)
    if dryRun then
      (report ++ ["\nDry-run only. Run with --apply to perform changes."], [], 0)
    else
      (report ++ changes.map (fun c => "Updated " ++ c.1 ++ " (backup: " ++ c.1 ++ ".bak)")
        ++ ["\nDone."], writeEvents changes, 0)

/-- Concrete codec used to instantiate witnesses and counterexamples: the
value of `yaml.safe_load` on the specific front matter texts appearing in
the concrete documents below, and of `yaml.safe_dump(·, sort_keys=False)`
on single-binding mappings whose `tags` value is a list of one string. -/
def testParse (s : String) : Option Yaml :=
  if s = "\ntags:\n- online-privacy\n" then
    some (.dict [("tags", .list [.str "online-privacy"])])
  else if s = "\ntags:\n- Online Privacy\n" then
    some (.dict [("tags", .list [.str "Online Privacy"])])
  else if s = "\ntags:\n- - a\n" then
    some (.dict [("tags", .list [.list [.str "a"]])])
  else if s = "\ntags:\n- privacy\n- privacy\n" then
    some (.dict [("tags", .list [.str "privacy", .str "privacy"])])
  else none

/-- Dump half of the concrete codec: `yaml.safe_dump(d, sort_keys=False)`
for a mapping of the single key `tags` to a one-string list. -/
def testDump (d : List (String × Yaml)) : String :=
  match d with
  | [("tags", Yaml.list [Yaml.str s])] => "tags:\n- " ++ s ++ "\n"
  | _ => ""

/-- The concrete codec assembled from `testParse` and `testDump`. -/
def testCodec : YamlCodec := ⟨testParse, testDump⟩

/-- A document whose tag list holds one variant spelling. -/
def docVar : String := "---\ntags:\n- Online Privacy\n---\nbody"

/-- The document produced by running the pipeline once on `docVar`: its
tag list is exactly the canonical singleton. -/
def docCanon : String := "---\ntags:\n- online-privacy\n---\nbody"

example : processFile testCodec docVar = .ok (some (docCanon, docVar)) := rfl

example : processFile testCodec docCanon = .ok (some (docCanon, docCanon)) := rfl

mutual
/-- Python value equality (`==`) on the modelled `Yaml` values: booleans
compare equal to the corresponding integers, sequences compare
elementwise.  Mappings are compared pairwise in order; Python compares
mappings without regard to binding order, but mappings are unhashable and
so never reach the deduplication step, and no claim compares mappings of
differing order. -/
def pyEq : Yaml → Yaml → Bool
  | .null, .null => true
  | .bool a, .bool b => a == b
  | .int a, .int b => a == b
  | .bool a, .int b => (if a then (1 : Int) else 0) == b
  | .int a, .bool b => a == (if b then (1 : Int) else 0)
  | .str a, .str b => a == b
  | .list xs, .list ys => pyEqList xs ys
  | .dict xs, .dict ys => pyEqDict xs ys
  | _, _ => false

/-- Elementwise `pyEq` on sequences. -/
def pyEqList : List Yaml → List Yaml → Bool
  | [], [] => true
  | x :: xs, y :: ys => pyEq x y && pyEqList xs ys
  | _, _ => false

/-- Pairwise `pyEq` on mapping bindings. -/
def pyEqDict : List (String × Yaml) → List (String × Yaml) → Bool
  | [], [] => true
  | (k, v) :: xs, (k2, v2) :: ys => k == k2 && pyEq v v2 && pyEqDict xs ys
  | _, _ => false
end

/-- True when the list holds two entries that Python compares equal. -/
def hasPyDup : List Yaml → Bool
  | [] => false
  | x :: xs => xs.any (pyEq x) || hasPyDup xs

/-- Specification-side deduplication, in the words of the spec: keep only
the first occurrence of each distinct value (distinctness by Python value
equality), preserving order. -/
def dedupSpec : List Yaml → List Yaml
  | [] => []
  | x :: xs => x :: dedupSpec (xs.filter (fun y => !pyEq x y))
termination_by l => l.length
decreasing_by
  simp only [List.length_cons]
  exact Nat.lt_succ_of_le (List.length_filter_le _ _)

/-- The variant matcher in the words of claim C3: the phrase
`online privacy`, case-insensitively, with the space optionally replaced
by a hyphen or an underscore, or omitted entirely, after trimming
surrounding whitespace. -/
def claimVariant (s : String) : Bool :=
  let t := String.mk ((pyStrip s).toList.map Char.toLower)
  t = "online privacy" || t = "online-privacy" || t = "online_privacy" ||
    t = "onlineprivacy"

/-- The tag list that `process_file` extracts from a document and passes
to `normalize_tags`, or `[]` when the document is skipped before that
call. -/
def extractedTags (codec : YamlCodec) (text : String) : List Yaml :=
  match loadFrontMatter codec.parse text with
  | (some front, _) =>
    match lookupKV front "tags" with
    | some (.list tags) => tags
    | _ => []
  | _ => []

/-- The empty file-system state. -/
def emptyFS : String → Option String := fun _ => none

/-- Not-Python-equal, the relation used to state deduplication. -/
def notPyEq (a b : Yaml) : Prop := pyEq a b = false

/-- A document whose tag list holds a nested (unhashable) sequence entry:
`yaml.safe_load` gives it the tag list `[["a"]]`. -/
def docNested : String := "---\ntags:\n- - a\n---\nbody"

/-- Claim C1: the claim states that the tag list `["online-privacy"]`
(already canonical, already deduplicated) yields `changed = false` and no
change record.  The code disagrees: `VARIANT_RE` matches the canonical
string itself (its hyphen form), so `normalize_tags` returns
`changed = True` and the document enters the change set. -/
theorem claim1_canonical_marked_changed :
    normalizeTags [Yaml.str "online-privacy"] =
      .ok ([Yaml.str "online-privacy"], true) ∧
    collectChanges testCodec [("post.md", docCanon)] =
      .ok [("post.md", docCanon, docCanon)] :=
  ⟨rfl, rfl⟩

/-- Claim C2: the claim states that a second run of the pipeline on the
content produced by a first run yields no further change and no rewrite.
The code disagrees: the first conjunct is the first run on `docVar`
(producing `docCanon`), the second conjunct runs the pipeline on
`docCanon` and still obtains a change record (with identical content),
because the canonical tag matches `VARIANT_RE` and sets `changed`. -/
theorem claim2_second_run_rewrites_again :
    processFile testCodec docVar = .ok (some (docCanon, docVar)) ∧
    processFile testCodec docCanon = .ok (some (docCanon, docCanon)) :=
  ⟨rfl, rfl⟩

/-- Claim C3, counterexample: the entry `online<TAB>privacy` does not
match the claimed pattern (space, hyphen, underscore, or nothing as the
separator), yet the code replaces it with the canonical tag, because the
regex class `[\s\-_]` accepts every whitespace character. -/
theorem claim3_counterexample :
    claimVariant "online\tprivacy" = false ∧
    normalizeTags [Yaml.str "online\tprivacy"] =
      .ok ([Yaml.str "online-privacy"], true) :=
  ⟨rfl, rfl⟩

/-- Claim C3 (amended): in the substitution pass, each string entry whose
whitespace-trimmed value is a full-string case-insensitive match of
`online privacy` with the space optionally replaced by any single
whitespace character, a hyphen or an underscore, or omitted entirely, is
replaced by the canonical string; every other entry is kept unchanged in
place, and the changed flag is set exactly when some entry matched. -/
theorem claim3_substitution (tags : List Yaml) :
    (substLoop tags).1 =
      tags.map (fun t => if isVariantEntry t then Yaml.str CANONICAL else t) ∧
    (substLoop tags).2 = tags.any isVariantEntry := by
  induction tags with
  | nil => exact ⟨rfl, rfl⟩
  | cons t ts ih =>
    simp only [substLoop, List.map_cons, List.any_cons]
    cases h : isVariantEntry t <;>
      simp [h, ih.1, ih.2]

/-- Claim C5, counterexample: a per-file error that is not swallowed.  On
a document whose tag list holds a nested sequence, `dict.fromkeys` raises
`TypeError`; `process_file` and `main` have no handler, so the error
escapes the per-file stage and becomes a run-level failure. -/
theorem claim5_counterexample :
    processFile testCodec docNested = .error "TypeError: unhashable type" ∧
    collectChanges testCodec [("post.md", docNested)] =
      .error "TypeError: unhashable type" :=
  ⟨rfl, rfl⟩

/-- Claim C9, counterexample: the tag list `[[], []]` holds duplicate
entries (Python compares the two empty sequences equal) and no entry
matching the variant pattern, yet `normalize_tags` does not return
`changed = False`: it raises `TypeError` in `dict.fromkeys`. -/
theorem claim9_counterexample :
    hasPyDup [Yaml.list [], Yaml.list []] = true ∧
    isVariantEntry (Yaml.list []) = false ∧
    normalizeTags [Yaml.list [], Yaml.list []] =
      .error "TypeError: unhashable type" :=
  ⟨rfl, rfl, rfl⟩

/-- Claim C10: when both `--apply` and `--dry-run` are given, dry-run
takes precedence: line 95 leaves `args.dry_run` as given, and the check
on line 118 returns before the apply loop, so nothing is written, the
exit status is 0, and only the pending changes are reported. -/
theorem claim10_dry_run_precedence (changes : List (String × String × String)) :
    (mainModel true true changes).2.1 = [] ∧
    (mainModel true true changes).2.2 = 0 ∧
    (mainModel true true changes).1 =
      (if changes.isEmpty then ["No files with tag variants found."]
       else changes.map (fun c => "Will update: " ++ c.1) ++
         ["\nDry-run only. Run with --apply to perform changes."]) := by
  unfold mainModel
  cases h : changes.isEmpty <;> simp [h]

/-- Two hashable values are Python-equal exactly when their hash keys
coincide. -/
theorem toKey_some_pyEq (a b : Yaml) (ka kb : PyKey)
    (ha : toKey a = some ka) (hb : toKey b = some kb) :
    (pyEq a b = true ↔ ka = kb) := by
  cases a <;> cases b <;>
    simp [toKey] at ha hb <;>
    subst ha <;> subst hb <;>
    simp [pyEq] <;>
    split_ifs <;> simp_all

/-- A hashable value is never Python-equal to an unhashable one. -/
theorem pyEq_hashable_unhashable (a b : Yaml) (k : PyKey)
    (ha : toKey a = some k) (hb : toKey b = none) : pyEq a b = false := by
  cases a <;> cases b <;> simp_all [toKey, pyEq]

/-- Filter predicate describing which elements `fromKeysLoop` still
inserts when the keys in `seen` were already inserted. -/
def keyNotIn (seen : List PyKey) (y : Yaml) : Bool :=
  match toKey y with
  | some k => !seen.contains k
  | none => true

theorem keyNotIn_cons (x y : Yaml) (k : PyKey) (seen : List PyKey)
    (hk : toKey x = some k) :
    (keyNotIn seen y && !pyEq x y) = keyNotIn (k :: seen) y := by
  cases hy : toKey y with
  | none =>
    simp [keyNotIn, hy, pyEq_hashable_unhashable x y k hk hy]
  | some ky =>
    simp only [keyNotIn, hy, List.contains_cons]
    have h2 := toKey_some_pyEq x y k ky hk hy
    cases hpe : pyEq x y with
    | true =>
      have hke : (ky == k) = true := by simp [(h2.mp hpe).symm]
      simp [hke]
    | false =>
      have hke : (ky == k) = false := by
        rcases hb : ky == k with _ | _
        · rfl
        · exact absurd (h2.mpr (eq_of_beq hb).symm) (by simp [hpe])
      simp [hke, Bool.and_comm]

/-- When `fromKeysLoop` succeeds, its result is the keep-first
deduplication (in the sense of `dedupSpec`) of the elements whose key is
not yet in `seen`. -/
theorem fromKeysLoop_ok_eq (xs : List Yaml) : ∀ (seen : List PyKey) (out : List Yaml),
    fromKeysLoop seen xs = .ok out → out = dedupSpec (xs.filter (keyNotIn seen)) := by
  induction xs with
  | nil =>
    intro seen out h
    simp only [fromKeysLoop] at h
    cases h
    simp [dedupSpec]
  | cons x xs ih =>
    intro seen out h
    cases hk : toKey x with
    | none => simp only [fromKeysLoop, hk] at h; cases h
    | some k =>
      simp only [fromKeysLoop, hk] at h
      by_cases hmem : seen.contains k = true
      · rw [if_pos hmem] at h
        have hx : keyNotIn seen x = false := by
          unfold keyNotIn; rw [hk]; show (!seen.contains k) = false
          rw [hmem]; rfl
        rw [List.filter_cons_of_neg (by simp [hx])]
        exact ih seen out h
      · rw [if_neg hmem] at h
        cases hrec : fromKeysLoop (k :: seen) xs with
        | error e => rw [hrec] at h; cases h
        | ok rest =>
          rw [hrec] at h
          cases h
          have hmem2 : seen.contains k = false := by
            cases hc : seen.contains k
            · rfl
            · exact absurd hc hmem
          have hx : keyNotIn seen x = true := by
            unfold keyNotIn; rw [hk]; show (!seen.contains k) = true
            rw [hmem2]; rfl
          rw [List.filter_cons_of_pos (by simp [hx])]
          unfold dedupSpec
          have hfilter : (xs.filter (keyNotIn seen)).filter (fun y => !pyEq x y)
              = xs.filter (keyNotIn (k :: seen)) := by
            rw [List.filter_filter _ _]
            exact List.filter_congr (fun y _ => by
              rw [Bool.and_comm]
              exact keyNotIn_cons x y k seen hk)
          rw [hfilter]
          exact congrArg (x :: ·) (ih (k :: seen) rest hrec)

/-- The function `dedupSpec` returns a sublist: relative order is preserved. -/
theorem dedupSpec_sublist (l : List Yaml) : List.Sublist (dedupSpec l) l := by
  induction l using dedupSpec.induct with
  | case1 => simp [dedupSpec]
  | case2 x xs ih =>
    rw [dedupSpec]
    exact List.Sublist.cons₂ x (ih.trans (List.filter_sublist xs))

/-- The function `dedupSpec` returns pairwise Python-distinct entries. -/
theorem dedupSpec_pairwise (l : List Yaml) : (dedupSpec l).Pairwise notPyEq := by
  induction l using dedupSpec.induct with
  | case1 => simp [dedupSpec]
  | case2 x xs ih =>
    rw [dedupSpec]
    refine List.Pairwise.cons (fun y hy => ?_) ih
    have hy2 : y ∈ xs.filter (fun y => !pyEq x y) := (dedupSpec_sublist _).subset hy
    have h3 := List.of_mem_filter hy2
    simpa [notPyEq] using h3

/-- With no key inserted yet, the `fromKeysLoop` filter keeps everything. -/
theorem filter_keyNotIn_nil (l : List Yaml) : l.filter (keyNotIn []) = l :=
  List.filter_eq_self.mpr (fun y _ => by
    unfold keyNotIn
    cases hy : toKey y <;> simp)

/-- Claim C4: whenever `normalize_tags` returns, the returned list is the
keep-first deduplication (by Python value equality) of the substituted
list — the relative order of first appearance of distinct final values is
preserved — and it holds no two Python-equal entries. -/
theorem claim4_dedup_order (tags out : List Yaml) (changed : Bool)
    (h : normalizeTags tags = .ok (out, changed)) :
    out = dedupSpec (substLoop tags).1 ∧ out.Pairwise notPyEq := by
  simp only [normalizeTags] at h
  cases hfk : pyFromKeys (substLoop tags).1 with
  | error e => rw [hfk] at h; cases h
  | ok final =>
    rw [hfk] at h
    cases h
    have h1 := fromKeysLoop_ok_eq (substLoop tags).1 [] out hfk
    rw [filter_keyNotIn_nil] at h1
    exact ⟨h1, h1 ▸ dedupSpec_pairwise _⟩

/-- Witness for C4 at a concrete tag list with a duplicate. -/
theorem claim4_witness :
    normalizeTags [Yaml.str "b", Yaml.str "a", Yaml.str "b"] =
      .ok ([Yaml.str "b", Yaml.str "a"], false) ∧
    ([Yaml.str "b", Yaml.str "a"] =
        dedupSpec (substLoop [Yaml.str "b", Yaml.str "a", Yaml.str "b"]).1 ∧
      List.Pairwise notPyEq [Yaml.str "b", Yaml.str "a"]) :=
  ⟨rfl, claim4_dedup_order _ _ false rfl⟩

/-- When no entry matches the variant pattern, the substitution pass is
the identity and leaves the changed flag unset. -/
theorem substLoop_no_variant (tags : List Yaml)
    (hvar : ∀ t ∈ tags, isVariantEntry t = false) :
    substLoop tags = (tags, false) := by
  induction tags with
  | nil => rfl
  | cons t ts ih =>
    have ht := hvar t (List.mem_cons_self t ts)
    have ih2 := ih (fun y hy => hvar y (List.mem_cons_of_mem t hy))
    simp [substLoop, ht, ih2]

/-- The call `dict.fromkeys` succeeds on a list of hashable values. -/
theorem fromKeysLoop_isOk (xs : List Yaml) :
    ∀ seen, (∀ t ∈ xs, (toKey t).isSome = true) →
      ∃ out, fromKeysLoop seen xs = .ok out := by
  induction xs with
  | nil => exact fun seen _ => ⟨[], rfl⟩
  | cons x xs ih =>
    intro seen hh
    have hx := hh x (List.mem_cons_self x xs)
    cases hk : toKey x with
    | none => rw [hk] at hx; cases hx
    | some k =>
      have hrest := fun s => ih s (fun t ht => hh t (List.mem_cons_of_mem x ht))
      by_cases hmem : seen.contains k = true
      · obtain ⟨out, hout⟩ := hrest seen
        exact ⟨out, by simp only [fromKeysLoop, hk]; rw [if_pos hmem]; exact hout⟩
      · obtain ⟨out, hout⟩ := hrest (k :: seen)
        exact ⟨x :: out, by simp only [fromKeysLoop, hk]; rw [if_neg hmem, hout]⟩

/-- Claim C9 (amended): for every tag list of hashable entries (no nested
sequence or mapping among them) holding duplicates but no entry matching
the variant pattern, `normalize_tags` returns `changed = false`, and the
document carrying that tag list is excluded from the change set
(`process_file` returns the skip outcome). -/
theorem claim9_no_variant_unchanged (tags : List Yaml) (codec : YamlCodec)
    (text : String) (front : List (String × Yaml)) (body : String)
    (hdup : hasPyDup tags = true)
    (hhash : ∀ t ∈ tags, (toKey t).isSome = true)
    (hvar : ∀ t ∈ tags, isVariantEntry t = false)
    (hl : loadFrontMatter codec.parse text = (some front, body))
    (ht : lookupKV front "tags" = some (Yaml.list tags)) :
    (∃ out, normalizeTags tags = .ok (out, false)) ∧
    processFile codec text = .ok none := by
  have hnorm : ∃ out, normalizeTags tags = .ok (out, false) := by
    obtain ⟨out, hout⟩ := fromKeysLoop_isOk tags [] hhash
    refine ⟨out, ?_⟩
    simp only [normalizeTags, substLoop_no_variant tags hvar, pyFromKeys]
    rw [hout]
  obtain ⟨out, hout⟩ := hnorm
  have hfne : front.isEmpty = false := by
    cases front
    · simp [lookupKV] at ht
    · rfl
  have htne : tags.isEmpty = false := by
    cases tags
    · cases hdup
    · rfl
  refine ⟨⟨out, hout⟩, ?_⟩
  simp only [processFile, hl, hfne, ht, pyFalsy, htne, hout]
  simp

/-- A document whose tag list holds the same non-variant tag twice. -/
def docDup : String := "---\ntags:\n- privacy\n- privacy\n---\nbody"

/-- Witness for C9 at a concrete duplicated, variant-free tag list. -/
theorem claim9_witness :
    hasPyDup [Yaml.str "privacy", Yaml.str "privacy"] = true ∧
    ((∃ out, normalizeTags [Yaml.str "privacy", Yaml.str "privacy"] =
        .ok (out, false)) ∧
      processFile testCodec docDup = .ok none) :=
  ⟨rfl,
    claim9_no_variant_unchanged [Yaml.str "privacy", Yaml.str "privacy"]
      testCodec docDup
      [("tags", Yaml.list [Yaml.str "privacy", Yaml.str "privacy"])] "\nbody"
      rfl (by decide) (by decide) rfl rfl⟩

/-- The substitution pass maps hashable entries to hashable entries. -/
theorem substLoop_mem_hashable (tags : List Yaml)
    (hh : ∀ t ∈ tags, (toKey t).isSome = true) :
    ∀ t ∈ (substLoop tags).1, (toKey t).isSome = true := by
  induction tags with
  | nil => simp [substLoop]
  | cons x xs ih =>
    intro t ht
    have ihx := ih (fun y hy => hh y (List.mem_cons_of_mem x hy))
    cases hv : isVariantEntry x <;> simp only [substLoop, hv] at ht
    · rcases List.mem_cons.mp ht with h1 | h2
      · exact h1 ▸ hh x (List.mem_cons_self x xs)
      · exact ihx t h2
    · rcases List.mem_cons.mp ht with h1 | h2
      · rw [h1]; rfl
      · exact ihx t h2

/-- Claim C5 (amended): per-file processing is total whenever the tag
list the file carries holds only hashable entries (strings, numbers,
booleans, null); it then never raises, and every skip is the `ok none`
outcome.  (A nested sequence or mapping entry instead raises `TypeError`
from `dict.fromkeys`, which no handler catches.) -/
theorem claim5_hashable_total (codec : YamlCodec) (text : String)
    (hh : ∀ t ∈ extractedTags codec text, (toKey t).isSome = true) :
    ∃ r, processFile codec text = .ok r := by
  rcases hlf : loadFrontMatter codec.parse text with ⟨fo, body⟩
  cases fo with
  | none => exact ⟨none, by simp only [processFile, hlf]⟩
  | some front =>
    cases hfe : front.isEmpty with
    | true => exact ⟨none, by simp only [processFile, hlf]; simp [hfe]⟩
    | false =>
      cases hlk : lookupKV front "tags" with
      | none => exact ⟨none, by simp only [processFile, hlf, hfe, hlk]; simp⟩
      | some v =>
        cases hfal : pyFalsy v with
        | true =>
          exact ⟨none, by simp only [processFile, hlf, hfe, hlk, hfal]; simp⟩
        | false =>
          cases v with
          | list tags =>
            have htags : extractedTags codec text = tags := by
              simp only [extractedTags, hlf, hlk]
            have hh2 := htags ▸ hh
            obtain ⟨out, hout⟩ :=
              fromKeysLoop_isOk (substLoop tags).1 []
                (substLoop_mem_hashable tags hh2)
            have hnorm : normalizeTags tags = .ok (out, (substLoop tags).2) := by
              simp only [normalizeTags, pyFromKeys]; rw [hout]
            cases hch : (substLoop tags).2 with
            | false =>
              exact ⟨none, by
                simp only [processFile, hlf, hfe, hlk, hfal, hnorm, hch]; simp⟩
            | true =>
              refine ⟨some ("---\n" ++
                  pyStrip (codec.dump (dictSet front "tags"
                    (.list (dedupSpec (substLoop tags).1)))) ++
                  "\n---\n" ++ pyLstrip body, text), ?_⟩
              have hout2 : out = dedupSpec (substLoop tags).1 := by
                have h1 := fromKeysLoop_ok_eq (substLoop tags).1 [] out hout
                rwa [filter_keyNotIn_nil] at h1
              simp only [processFile, hlf, hfe, hlk, hfal, hnorm, hch, hout2]
              simp
          | null =>
            exact ⟨none, by simp only [processFile, hlf, hfe, hlk, hfal]; simp⟩
          | bool b =>
            exact ⟨none, by simp only [processFile, hlf, hfe, hlk, hfal]; simp⟩
          | int n =>
            exact ⟨none, by simp only [processFile, hlf, hfe, hlk, hfal]; simp⟩
          | str s =>
            exact ⟨none, by simp only [processFile, hlf, hfe, hlk, hfal]; simp⟩
          | dict d =>
            exact ⟨none, by simp only [processFile, hlf, hfe, hlk, hfal]; simp⟩

/-- Witness for C5 at a concrete document with a hashable tag list. -/
theorem claim5_witness :
    (∀ t ∈ extractedTags testCodec docVar, (toKey t).isSome = true) ∧
    (∃ r, processFile testCodec docVar = .ok r) :=
  ⟨by decide, claim5_hashable_total testCodec docVar (by decide)⟩

/-- The no-metadata condition of claim C6: the text does not begin with
the delimiter, or fewer than two delimiter occurrences exist (fewer than
three split parts), or decoding fails, or the decoded value is not a
mapping. -/
def noMetaCond (parse : String → Option Yaml) (text : String) : Bool :=
  !pyStartsWith text "---" ||
  decide ((pySplit2Str "---" text).length < 3) ||
  (match parse ((pySplit2Str "---" text).getD 1 "") with
   | some (.dict _) => false
   | _ => true)

/-- Claim C6: the parser returns the no-metadata sentinel `(none, text)`
(document untouched, no exception escapes) exactly under `noMetaCond`;
otherwise it returns the decoded mapping together with the body text
after the second delimiter. -/
theorem claim6_parser_sentinel (parse : String → Option Yaml) (text : String) :
    (noMetaCond parse text = true → loadFrontMatter parse text = (none, text)) ∧
    (noMetaCond parse text = false →
      ∃ d, parse ((pySplit2Str "---" text).getD 1 "") = some (Yaml.dict d) ∧
        loadFrontMatter parse text = (some d, (pySplit2Str "---" text).getD 2 "")) := by
  by_cases h1 : pyStartsWith text "---" = true
  · by_cases h2 : (pySplit2Str "---" text).length < 3
    · exact ⟨fun _ => by simp [loadFrontMatter, h1, h2],
        fun hc => by simp [noMetaCond, h2] at hc⟩
    · cases hp : parse ((pySplit2Str "---" text).getD 1 "") with
      | none =>
        refine ⟨fun _ => ?_, fun hc => ?_⟩
        · have hp2 := hp
          simp only [List.getD_eq_getElem?_getD] at hp2
          simp [loadFrontMatter, h1, h2, hp2]
        · have hp2 := hp
          simp only [List.getD_eq_getElem?_getD] at hp2
          simp [noMetaCond, h1, h2, hp2] at hc
      | some v =>
        have hp2 := hp
        simp only [List.getD_eq_getElem?_getD] at hp2
        cases v with
        | dict d =>
          refine ⟨fun hc => ?_, fun _ => ⟨d, rfl, ?_⟩⟩
          · simp [noMetaCond, h1, h2, hp2] at hc
          · simp [loadFrontMatter, h1, h2, hp2]
        | null =>
          exact ⟨fun _ => by simp [loadFrontMatter, h1, h2, hp2],
            fun hc => by simp [noMetaCond, h1, h2, hp2] at hc⟩
        | bool b =>
          exact ⟨fun _ => by simp [loadFrontMatter, h1, h2, hp2],
            fun hc => by simp [noMetaCond, h1, h2, hp2] at hc⟩
        | int n =>
          exact ⟨fun _ => by simp [loadFrontMatter, h1, h2, hp2],
            fun hc => by simp [noMetaCond, h1, h2, hp2] at hc⟩
        | str s =>
          exact ⟨fun _ => by simp [loadFrontMatter, h1, h2, hp2],
            fun hc => by simp [noMetaCond, h1, h2, hp2] at hc⟩
        | list xs =>
          exact ⟨fun _ => by simp [loadFrontMatter, h1, h2, hp2],
            fun hc => by simp [noMetaCond, h1, h2, hp2] at hc⟩
  · have h1f : pyStartsWith text "---" = false := by
      cases hps : pyStartsWith text "---"
      · rfl
      · exact absurd hps h1
    exact ⟨fun _ => by simp [loadFrontMatter, h1f],
      fun hc => by simp [noMetaCond, h1f] at hc⟩

/-- Witness for C6: a document with valid front matter (sentinel not
taken), applied through the second conjunct of the claim theorem. -/
theorem claim6_witness :
    noMetaCond testCodec.parse docVar = false ∧
    (∃ d, testCodec.parse ((pySplit2Str "---" docVar).getD 1 "") =
        some (Yaml.dict d) ∧
      loadFrontMatter testCodec.parse docVar =
        (some d, (pySplit2Str "---" docVar).getD 2 "")) :=
  ⟨rfl, (claim6_parser_sentinel testCodec.parse docVar).2 rfl⟩

/-- A successful `dict.get` means the mapping carries the key. -/
theorem lookup_some_any (d : List (String × Yaml)) (k : String) (v : Yaml)
    (h : lookupKV d k = some v) : d.any (fun kv => kv.1 == k) = true := by
  unfold lookupKV at h
  cases hf : d.find? (fun kv => kv.1 == k) with
  | none => rw [hf] at h; cases h
  | some kv =>
    have hp := List.find?_some hf
    exact List.any_eq_true.mpr ⟨kv, List.mem_of_find?_eq_some hf, hp⟩

/-- The statement `front["tags"] = new_tags` on a mapping carrying the key keeps the
key sequence unchanged. -/
theorem dictSet_keys (d : List (String × Yaml)) (k : String) (v : Yaml)
    (h : d.any (fun kv => kv.1 == k) = true) :
    (dictSet d k v).map Prod.fst = d.map Prod.fst := by
  unfold dictSet
  rw [if_pos h, List.map_map]
  refine List.map_congr_left (fun kv _ => ?_)
  by_cases hk : kv.1 = k
  · simp [hk]
  · simp [hk]

/-- Replacing the value bound to `k` does not disturb `find?` for another
key `k2`. -/
theorem find?_map_dictSet (d : List (String × Yaml)) (k : String) (v : Yaml)
    (k2 : String) (hkk2 : (k == k2) = false) :
    List.find? (fun kv => kv.1 == k2)
        (d.map (fun kv => if kv.1 == k then (k, v) else kv))
      = List.find? (fun kv => kv.1 == k2) d := by
  induction d with
  | nil => rfl
  | cons kv d ih =>
    simp only [List.map_cons]
    by_cases hk : kv.1 = k
    · have h2 : (kv.1 == k2) = false := by rw [hk]; exact hkk2
      have hhead : (if kv.1 == k then (k, v) else kv) = (k, v) := by simp [hk]
      rw [hhead]
      simp only [List.find?, hkk2, h2]
      exact ih
    · have hhead : (if kv.1 == k then (k, v) else kv) = kv := by simp [hk]
      rw [hhead]
      by_cases hh : kv.1 = k2
      · have h1 : (kv.1 == k2) = true := by simp [hh]
        simp only [List.find?, h1]
      · have h1 : (kv.1 == k2) = false := by simp [hh]
        simp only [List.find?, h1]
        exact ih

/-- The statement `front["tags"] = new_tags` leaves the binding of every other key
unchanged. -/
theorem dictSet_lookup_ne (d : List (String × Yaml)) (k : String) (v : Yaml)
    (k2 : String) (h2 : (k2 == k) = false) :
    lookupKV (dictSet d k v) k2 = lookupKV d k2 := by
  have hne : ¬ k2 = k := by simpa using h2
  have hkk2 : (k == k2) = false := by
    cases hc : k == k2
    · rfl
    · exact absurd (eq_of_beq hc).symm hne
  unfold dictSet
  by_cases h : d.any (fun kv => kv.1 == k) = true
  · rw [if_pos h]
    unfold lookupKV
    rw [find?_map_dictSet d k v k2 hkk2]
  · rw [if_neg h]
    unfold lookupKV
    rw [List.find?_append]
    have hnone : List.find? (fun kv => kv.1 == k2) [(k, v)] = none := by
      simp only [List.find?, hkk2]
    rw [hnone]
    simp

/-- On a string with no leading whitespace, the Python two-sided strip
only trims trailing whitespace. -/
theorem pyStrip_eq_trimTrailing (s : String) (h : noLeadingWs s = true) :
    pyStrip s = trimTrailing s := by
  unfold pyStrip trimTrailing pyLstripL
  congr 1
  cases hl : s.toList with
  | nil => simp
  | cons c cs =>
    have hpc : pyWs c = false := by
      unfold noLeadingWs at h
      rw [hl] at h
      simpa using h
    simp [List.dropWhile_cons, hpc]

/-- Claim C7: whenever the pipeline rewrites a document, only the `tags`
binding of the front matter is replaced — the key sequence and every
other binding are untouched — the recorded original is the input text,
and the new content is exactly the delimiter, a newline, the re-encoded
metadata stripped of surrounding whitespace (which is a trailing-only
trim whenever the encoder output has no leading whitespace, as
`yaml.safe_dump` output never has), a newline, the delimiter, a newline,
and the original body with leading whitespace stripped. -/
theorem claim7_writer_frame (codec : YamlCodec) (text newText origText : String)
    (h : processFile codec text = .ok (some (newText, origText))) :
    ∃ front body tags newTags,
      loadFrontMatter codec.parse text = (some front, body) ∧
      lookupKV front "tags" = some (Yaml.list tags) ∧
      normalizeTags tags = .ok (newTags, true) ∧
      origText = text ∧
      (dictSet front "tags" (Yaml.list newTags)).map Prod.fst =
        front.map Prod.fst ∧
      (∀ k2, (k2 == "tags") = false →
        lookupKV (dictSet front "tags" (Yaml.list newTags)) k2 =
          lookupKV front k2) ∧
      newText = "---\n" ++
        pyStrip (codec.dump (dictSet front "tags" (Yaml.list newTags))) ++
        "\n---\n" ++ pyLstrip body ∧
      (noLeadingWs (codec.dump (dictSet front "tags" (Yaml.list newTags))) = true →
        newText = "---\n" ++
          trimTrailing (codec.dump (dictSet front "tags" (Yaml.list newTags))) ++
          "\n---\n" ++ pyLstrip body) := by
  rcases hlf : loadFrontMatter codec.parse text with ⟨fo, body⟩
  cases fo with
  | none => simp [processFile, hlf] at h
  | some front =>
    cases hfe : front.isEmpty with
    | true => simp [processFile, hlf, hfe] at h
    | false =>
      cases hlk : lookupKV front "tags" with
      | none => simp [processFile, hlf, hfe, hlk] at h
      | some v =>
        cases hfal : pyFalsy v with
        | true => simp [processFile, hlf, hfe, hlk, hfal] at h
        | false =>
          cases v with
          | null => simp [processFile, hlf, hfe, hlk, hfal] at h
          | bool b => simp [processFile, hlf, hfe, hlk, hfal] at h
          | int n => simp [processFile, hlf, hfe, hlk, hfal] at h
          | str s => simp [processFile, hlf, hfe, hlk, hfal] at h
          | dict d2 => simp [processFile, hlf, hfe, hlk, hfal] at h
          | list tags =>
            cases hn : normalizeTags tags with
            | error e => simp [processFile, hlf, hfe, hlk, hfal, hn] at h
            | ok r =>
              rcases r with ⟨newTags, changed⟩
              cases hch : changed with
              | false =>
                rw [hch] at hn
                simp [processFile, hlf, hfe, hlk, hfal, hn] at h
              | true =>
                rw [hch] at hn
                have heq : processFile codec text =
                    .ok (some ("---\n" ++
                      pyStrip (codec.dump (dictSet front "tags"
                        (Yaml.list newTags))) ++
                      "\n---\n" ++ pyLstrip body, text)) := by
                  simp [processFile, hlf, hfe, hlk, hfal, hn]
                rw [heq] at h
                injection h with h1
                injection h1 with h2
                injection h2 with hA hB
                subst hA
                subst hB
                refine ⟨front, body, tags, newTags, rfl, hlk, hn, rfl,
                  dictSet_keys front "tags" (Yaml.list newTags)
                    (lookup_some_any front "tags" (Yaml.list tags) hlk),
                  fun k2 hk2 =>
                    dictSet_lookup_ne front "tags" (Yaml.list newTags) k2 hk2,
                  rfl, fun hnl => ?_⟩
                rw [pyStrip_eq_trimTrailing _ hnl]

/-- Witness for C7 at a concrete rewritten document. -/
theorem claim7_witness :
    processFile testCodec docVar = .ok (some (docCanon, docVar)) ∧
    (∃ front body tags newTags,
      loadFrontMatter testCodec.parse docVar = (some front, body) ∧
      lookupKV front "tags" = some (Yaml.list tags) ∧
      normalizeTags tags = .ok (newTags, true) ∧
      docVar = docVar ∧
      (dictSet front "tags" (Yaml.list newTags)).map Prod.fst =
        front.map Prod.fst ∧
      (∀ k2, (k2 == "tags") = false →
        lookupKV (dictSet front "tags" (Yaml.list newTags)) k2 =
          lookupKV front k2) ∧
      docCanon = "---\n" ++
        pyStrip (testCodec.dump (dictSet front "tags" (Yaml.list newTags))) ++
        "\n---\n" ++ pyLstrip body ∧
      (noLeadingWs (testCodec.dump (dictSet front "tags"
          (Yaml.list newTags))) = true →
        docCanon = "---\n" ++
          trimTrailing (testCodec.dump (dictSet front "tags"
            (Yaml.list newTags))) ++
          "\n---\n" ++ pyLstrip body)) :=
  ⟨rfl, claim7_writer_frame testCodec docVar docCanon docVar rfl⟩

/-- Position and effect of the two writes of each change record in the
apply loop: the backup write sits at even index `2*i`, the overwrite at
`2*i + 1`, and replaying the events up to and including the backup write
(strictly before the overwrite) leaves the backup path holding the
original content. -/
theorem writeEvents_spec (changes : List (String × String × String)) :
    ∀ (i : Nat), i < changes.length → ∀ (fs0 : String → Option String),
      (writeEvents changes).getD (2*i) ("", "") =
        ((changes.getD i ("", "", "")).1 ++ ".bak",
          (changes.getD i ("", "", "")).2.2) ∧
      (writeEvents changes).getD (2*i+1) ("", "") =
        ((changes.getD i ("", "", "")).1, (changes.getD i ("", "", "")).2.1) ∧
      applyWrites fs0 ((writeEvents changes).take (2*i+1))
        ((changes.getD i ("", "", "")).1 ++ ".bak") =
        some (changes.getD i ("", "", "")).2.2 := by
  induction changes with
  | nil => intro i h; simp at h
  | cons c cs ih =>
    intro i h fs0
    cases i with
    | zero =>
      refine ⟨rfl, rfl, ?_⟩
      show (fun q => if q == c.1 ++ ".bak" then some c.2.2 else fs0 q)
        (c.1 ++ ".bak") = some c.2.2
      simp
    | succ j =>
      have hj : j < cs.length := by simpa using h
      have e1 : 2 * (j+1) = 2*j + 1 + 1 := by omega
      have e2 : 2 * (j+1) + 1 = 2*j + 1 + 1 + 1 := by omega
      refine ⟨?_, ?_, ?_⟩
      · rw [e1]
        simp only [writeEvents, List.getD_cons_succ]
        exact (ih j hj fs0).1
      · rw [e2]
        simp only [writeEvents, List.getD_cons_succ]
        exact (ih j hj fs0).2.1
      · rw [e2]
        simp only [writeEvents, List.take_succ_cons, applyWrites,
          List.getD_cons_succ]
        exact (ih j hj _).2.2

/-- Claim C8: in apply mode, the write sequence of `main` performs, for
every change record, the backup write (original path with the fixed
`.bak` suffix appended, holding the original pre-change content) strictly
before the overwrite of the original path; at the moment of each
overwrite, replaying the writes performed so far over any initial
file-system state shows the backup already present with the original
content. -/
theorem claim8_backup_before_overwrite
    (changes : List (String × String × String)) (i : Nat)
    (h : i < changes.length) (fs0 : String → Option String) :
    (mainModel true false changes).2.1 = writeEvents changes ∧
    (writeEvents changes).getD (2*i) ("", "") =
      ((changes.getD i ("", "", "")).1 ++ ".bak",
        (changes.getD i ("", "", "")).2.2) ∧
    (writeEvents changes).getD (2*i+1) ("", "") =
      ((changes.getD i ("", "", "")).1, (changes.getD i ("", "", "")).2.1) ∧
    2*i < 2*i+1 ∧
    applyWrites fs0 ((writeEvents changes).take (2*i+1))
      ((changes.getD i ("", "", "")).1 ++ ".bak") =
      some (changes.getD i ("", "", "")).2.2 := by
  have hne : changes.isEmpty = false := by
    cases changes
    · simp at h
    · rfl
  obtain ⟨h1, h2, h3⟩ := writeEvents_spec changes i h fs0
  exact ⟨by simp [mainModel, hne], h1, h2, by omega, h3⟩

/-- Witness for C8 at a concrete one-element change set. -/
theorem claim8_witness :
    0 < [("post.md", "new text", "old text")].length ∧
    ((mainModel true false [("post.md", "new text", "old text")]).2.1 =
      writeEvents [("post.md", "new text", "old text")] ∧
    (writeEvents [("post.md", "new text", "old text")]).getD 0 ("", "") =
      ("post.md" ++ ".bak", "old text") ∧
    (writeEvents [("post.md", "new text", "old text")]).getD 1 ("", "") =
      ("post.md", "new text") ∧
    0 < 1 ∧
    applyWrites emptyFS
        ((writeEvents [("post.md", "new text", "old text")]).take 1)
        ("post.md" ++ ".bak") = some "old text") := by
  refine ⟨by decide, ?_⟩
  have h := claim8_backup_before_overwrite
    [("post.md", "new text", "old text")] 0 (by decide) emptyFS
  simpa using h
